import Mathlib

/-!
Verification of the commit-graph layout engine of git-pilot.

The definitions below are a shallow embedding of the `CommitGraph` layout
pass in `src/app/layout.tsx` (the `useMemo` computing `nodePositions`,
`edges` and `maxLane`) and of the `git()` command wrapper in the git
library module.  JavaScript growable arrays are modelled as Lean lists
with an explicit grow-on-write operation; the `-1` sentinel of
`indexOf`/`findIndex` is modelled with `Option Nat`; sparse-array holes
behave, for every operation the code performs on them, like `false`
(falsy, hence a free lane) respectively `null`, which is how `jsSet`
pads.
-/

namespace GitPilot

/-- Input record of the layout pass (`interface GraphCommit` in
`layout.tsx`).  The layout algorithm reads only `hash` and `parents`;
the remaining fields are display metadata passed through unchanged, so
they are given defaults for concise test inputs but kept in the model. -/
structure GraphCommit where
  hash : String
  shortHash : String := ""
  message : String := ""
  author : String := ""
  date : String := ""
  parents : List String
  branches : List String := []
  tags : List String := []
  isHead : Bool := false
deriving DecidableEq, Repr

/-- `const COLORS = [...]` in `layout.tsx`. -/
def COLORS : List String :=
  ["#3b82f6", "#22c55e", "#f59e0b", "#ef4444",
   "#8b5cf6", "#06b6d4", "#ec4899", "#f97316"]

/-- `const ROW_HEIGHT = 32`. -/
def ROW_HEIGHT : Nat := 32

/-- `const COL_WIDTH = 14`. -/
def COL_WIDTH : Nat := 14

/-- `const PADDING_LEFT = 8`. -/
def PADDING_LEFT : Nat := 8

/-- JavaScript array element write `a[i] = v` on a growable array:
in-bounds writes update, out-of-bounds writes extend the array, filling
any gap with `dflt` (the value the code's reads of a hole are equivalent
to).  In the layout pass the write index never exceeds the length, so
the padding is always empty. -/
def jsSet {α : Type} (l : List α) (i : Nat) (dflt a : α) : List α :=
  if i < l.length then l.set i a
  else l ++ List.replicate (i - l.length) dflt ++ [a]

/-- The mutable state of the lane-assignment loop: `laneOccupied` and
`laneExpects`, the two parallel growable arrays of `layout.tsx`. -/
structure LaneState where
  laneOccupied : List Bool
  laneExpects : List (Option String)
deriving DecidableEq, Repr

/-- Step 1 of the loop body: `laneExpects.indexOf(commit.hash)`, falling
back to `laneOccupied.findIndex(o => !o)`, falling back to appending a
new lane at `laneOccupied.length`. -/
def assignLane (s : LaneState) (c : GraphCommit) : Nat :=
  match s.laneExpects.findIdx? (fun e => e == some c.hash) with
  | some l => l
  | none =>
    match s.laneOccupied.findIdx? (fun o => !o) with
    | some l => l
    | none => s.laneOccupied.length

/-- Body of the merge-parent loop (`for (let p = 1; ...)`): if no lane
already expects `parentHash`, reserve the lowest free lane other than
`assignedLane` (or append a new one) and set its expectation. -/
def reserveParent (assignedLane : Nat) (s : LaneState) (parentHash : String) :
    LaneState :=
  if s.laneExpects.contains (some parentHash) then s
  else
    let parentLane :=
      match s.laneOccupied.enum.find? (fun oi => !oi.2 && oi.1 != assignedLane) with
      | some oi => oi.1
      | none => s.laneOccupied.length
    { laneOccupied := jsSet s.laneOccupied parentLane false true
      laneExpects := jsSet s.laneExpects parentLane none (some parentHash) }

/-- Guard of the stale-lane sweep: `laneExpects[lane]` is truthy (a
non-empty string) and no remaining commit carries that hash. -/
def staleExpect (remaining : List GraphCommit) (e : Option String) : Bool :=
  match e with
  | some h => h != "" && !(remaining.any fun c => c.hash == h)
  | none => false

/-- The stale-lane sweep at the end of each iteration: every lane whose
expectation can no longer be satisfied by the remaining commits is
released (`laneOccupied[lane] = false; laneExpects[lane] = null`).  The
two arrays always have equal length, so the sweep is a pointwise map. -/
def gcLanes (remaining : List GraphCommit) (s : LaneState) : LaneState :=
  { laneOccupied := (s.laneOccupied.zip s.laneExpects).map
      (fun oe => if staleExpect remaining oe.2 then false else oe.1)
    laneExpects := s.laneExpects.map
      (fun e => if staleExpect remaining e then none else e) }

/-- One iteration of the lane loop for commit `c`, where `remaining` is
`commits.slice(i + 1)`: assign a lane, mark it occupied and clear its
expectation, reserve continuations for the parents (first parent in the
same lane, merge parents in their own lanes; a root releases its lane),
then run the stale-lane sweep.  Returns the assigned lane and the new
state. -/
def processCommit (s : LaneState) (c : GraphCommit)
    (remaining : List GraphCommit) : Nat × LaneState :=
  let assignedLane := assignLane s c
  let occ := jsSet s.laneOccupied assignedLane false true
  let expCleared := jsSet s.laneExpects assignedLane none none
  let s1 : LaneState :=
    match c.parents with
    | [] =>
      { laneOccupied := jsSet occ assignedLane false false
        laneExpects := expCleared }
    | p0 :: rest =>
      rest.foldl (reserveParent assignedLane)
        { laneOccupied := occ
          laneExpects := jsSet expCleared assignedLane none (some p0) }
  (assignedLane, gcLanes remaining s1)

/-- The lane loop (`for (let i = 0; i < commits.length; i++)`), producing
the lane of each commit in order. -/
def laneLoop (s : LaneState) : List GraphCommit → List Nat
  | [] => []
  | c :: rest =>
    let r := processCommit s c rest
    r.1 :: laneLoop r.2 rest

/-- `lanes[]`: the lane assigned to each commit, starting from empty
`laneOccupied`/`laneExpects` arrays. -/
def computeLanes (cs : List GraphCommit) : List Nat :=
  laneLoop { laneOccupied := [], laneExpects := [] } cs

/-- `const maxLane = Math.max(...lanes, 0) + 1`. -/
def maxLane (cs : List GraphCommit) : Nat :=
  (computeLanes cs).foldl max 0 + 1

/-- State of the lane loop after processing the commits of `pre`, when
the full input is `pre ++ suffix` (the stale-lane sweep looks at the
true remainder of the input, so the suffix must be carried along). -/
def stateAfter (s : LaneState) : List GraphCommit → List GraphCommit → LaneState
  | [], _ => s
  | c :: pre, suffix => stateAfter (processCommit s c (pre ++ suffix)).2 pre suffix

/-- State of the lane loop just before row `pre.length` of the input
`pre ++ suffix`, starting from the empty state. -/
def stateBefore (pre suffix : List GraphCommit) : LaneState :=
  stateAfter { laneOccupied := [], laneExpects := [] } pre suffix

/-- A rendered node (`nodePositions` entry in `layout.tsx`).
`ROW_HEIGHT / 2 = 16` is exact, so all coordinates are naturals. -/
structure NodePos where
  hash : String
  x : Nat
  y : Nat
  lane : Nat
  color : String
deriving DecidableEq, Repr

/-- `nodePositions = commits.map((commit, i) => ...)`; `lanes[i]` is read
for `i < commits.length = lanes.length`, which the zip reproduces. -/
def nodePositions (cs : List GraphCommit) : List NodePos :=
  (cs.zip (computeLanes cs)).enum.map fun icl =>
    { hash := icl.2.1.hash
      x := icl.2.2 * COL_WIDTH + PADDING_LEFT
      y := icl.1 * ROW_HEIGHT + ROW_HEIGHT / 2
      lane := icl.2.2
      color := (COLORS.get? (icl.2.2 % COLORS.length)).getD "" }

/-- `hashToIndex`: a `Map` filled by `commits.forEach((c, i) => set(c.hash, i))`,
so for duplicate hashes the last index wins; `get` of an absent hash is
`undefined` (`none`). -/
def hashToIndex (cs : List GraphCommit) (h : String) : Option Nat :=
  (cs.enum.reverse.find? fun ic => ic.2.hash == h).map (fun ic => ic.1)

/-- A connector segment (`edges` entry in `layout.tsx`). -/
structure Edge where
  x1 : Nat
  y1 : Nat
  x2 : Nat
  y2 : Nat
  color : String
deriving DecidableEq, Repr

/-- Placeholder for an out-of-range node read; the code never reads out
of range (`hashToIndex` only yields indices below `commits.length`). -/
def defaultNode : NodePos :=
  { hash := "", x := 0, y := 0, lane := 0, color := "" }

/-- The inner edge loop for commit `i` (`for (let p = 0; ...)`): each
parent yields one edge — to the parent's node when the parent hash is in
the window, otherwise a terminus edge straight down to
`commits.length * ROW_HEIGHT` in the commit's own color. -/
def edgesOfCommit (cs : List GraphCommit) (nodes : List NodePos) (i : Nat)
    (c : GraphCommit) : List Edge :=
  let node := nodes.getD i defaultNode
  c.parents.enum.map fun pp =>
    match hashToIndex cs pp.2 with
    | some parentIndex =>
      let parentNode := nodes.getD parentIndex defaultNode
      { x1 := node.x, y1 := node.y, x2 := parentNode.x, y2 := parentNode.y
        color := if pp.1 == 0 then node.color else parentNode.color }
    | none =>
      { x1 := node.x, y1 := node.y, x2 := node.x
        y2 := cs.length * ROW_HEIGHT
        color := node.color }

/-- The full edge list: the outer loop over commits, pushing the edges
of each commit in order. -/
def graphEdges (cs : List GraphCommit) : List Edge :=
  cs.enum.flatMap fun ic => edgesOfCommit cs (nodePositions cs) ic.1 ic.2

/-- The complete result of the layout pass:
`{ nodePositions, edges, maxLane }`. -/
def layoutPass (cs : List GraphCommit) :
    List NodePos × List Edge × Nat :=
  (nodePositions cs, graphEdges cs, maxLane cs)

/-- Outcome of `execAsync`: either resolution with a stdout string, or
rejection with an error object carrying optional `stdout`, `stderr` and
`message` fields (absent fields are `none`). -/
inductive ExecResult where
  | success (stdout : String)
  | failure (stdout stderr message : Option String)
deriving DecidableEq, Repr

/-- JavaScript truthiness of an optional string: present and non-empty. -/
def truthy : Option String → Bool
  | some s => s != ""
  | none => false

/-- JavaScript `a || b` for an optional string `a` and fallback `b`. -/
def jsOr (a : Option String) (b : String) : String :=
  match a with
  | some s => if s = "" then b else s
  | none => b

/-- The `git()` wrapper over the command runner: on success return the
trimmed stdout; on failure return the trimmed stdout if it is truthy,
otherwise throw `stderr || message || 'Git command failed'`. -/
def gitWrapper (result : ExecResult) : Except String String :=
  match result with
  | .success stdout => .ok stdout.trim
  | .failure stdout stderr message =>
    if truthy stdout then .ok ((stdout.getD "").trim)
    else .error (jsOr stderr (jsOr message "Git command failed"))

/-! ### Concrete inputs used in the scenarios and counterexamples -/

/-- Scenario B of the spec: root `A`, children `B` and `C`, fed newest
first as `[C, B, A]`. -/
def scenarioB : List GraphCommit :=
  [{ hash := "C", parents := ["A"] },
   { hash := "B", parents := ["A"] },
   { hash := "A", parents := [] }]

/-! ### Basic lemmas about the lane loop -/

lemma laneLoop_length (cs : List GraphCommit) : ∀ s, (laneLoop s cs).length = cs.length := by
  induction cs with
  | nil => intro s; rfl
  | cons c rest ih => intro s; simp [laneLoop, ih]

lemma computeLanes_length (cs : List GraphCommit) :
    (computeLanes cs).length = cs.length :=
  laneLoop_length cs _

lemma le_foldl_max (l : List Nat) : ∀ a, a ≤ l.foldl max a := by
  induction l with
  | nil => intro a; exact le_rfl
  | cons b l ih => intro a; exact le_trans (le_max_left a b) (ih (max a b))

lemma mem_le_foldl_max (l : List Nat) : ∀ a x, x ∈ l → x ≤ l.foldl max a := by
  induction l with
  | nil => intro a x h; cases h
  | cons b l ih =>
    intro a x h
    rcases List.mem_cons.mp h with rfl | h
    · exact le_trans (le_max_right a x) (le_foldl_max l (max a x))
    · exact ih (max a b) x h

lemma foldl_max_mem (l : List Nat) : ∀ a, l.foldl max a ∈ a :: l := by
  induction l with
  | nil => intro a; simp
  | cons b l ih =>
    intro a
    rw [List.foldl_cons]
    rcases List.mem_cons.mp (ih (max a b)) with h | h
    · rcases max_choice a b with hc | hc
      · rw [h, hc]; exact List.mem_cons_self _ _
      · rw [h, hc]; exact List.mem_cons_of_mem _ (List.mem_cons_self _ _)
    · exact List.mem_cons_of_mem _ (List.mem_cons_of_mem _ h)

/-! ### Claim theorems -/

/-- C1: for every finite input sequence the layout pass terminates and
assigns a lane to every commit — `computeLanes` is a total function
(structural recursion, no exceptions) and its output has one lane per
input commit, with no well-formedness assumption on the input. -/
theorem C1_total_lane_assignment (cs : List GraphCommit) :
    (computeLanes cs).length = cs.length :=
  computeLanes_length cs

/-- C2: every assigned lane `l` satisfies `0 ≤ l < maxLane`, where
`maxLane` is the value returned by the layout pass. -/
theorem C2_lane_bounds (cs : List GraphCommit) (l : Nat)
    (h : l ∈ computeLanes cs) : 0 ≤ l ∧ l < maxLane cs := by
  refine ⟨Nat.zero_le l, ?_⟩
  have hle := mem_le_foldl_max (computeLanes cs) 0 l h
  unfold maxLane
  omega

/-- Witness for C2 at Scenario B: lane 1 is assigned to commit `B` and
is strictly below `maxLane = 2`. -/
theorem C2_lane_bounds_witness :
    1 ∈ computeLanes scenarioB ∧ (0 ≤ 1 ∧ 1 < maxLane scenarioB) :=
  ⟨by decide, C2_lane_bounds scenarioB 1 (by decide)⟩

/-- C3: on Scenario B (`[C, B, A]`, both `B` and `C` children of root
`A`), `C` and `B` get the two different lanes 0 and 1, both lanes expect
`A` just before the third row, `A` is assigned lane 0 — the lane of `C`,
the earlier of the two — and `maxLane = 2`. -/
theorem C3_scenario_b :
    computeLanes scenarioB = [0, 1, 0] ∧
    (stateBefore (scenarioB.take 2) (scenarioB.drop 2)).laneExpects =
      [some "A", some "A"] ∧
    maxLane scenarioB = 2 := by
  refine ⟨by decide, by decide, by decide⟩

/-- C9: the layout pass is a deterministic function of its input — two
invocations on the same commit sequence yield identical lanes, node
positions, edges and `maxLane`. -/
theorem C9_deterministic (cs₁ cs₂ : List GraphCommit) (h : cs₁ = cs₂) :
    computeLanes cs₁ = computeLanes cs₂ ∧ layoutPass cs₁ = layoutPass cs₂ := by
  subst h
  exact ⟨rfl, rfl⟩

/-- Witness for C9 at Scenario B. -/
theorem C9_deterministic_witness :
    computeLanes scenarioB = computeLanes scenarioB ∧
    layoutPass scenarioB = layoutPass scenarioB :=
  C9_deterministic scenarioB scenarioB rfl

/-- C10: if the external git command fails but produced non-empty
stdout, the `git()` wrapper returns that trimmed stdout as a success, so
the caller cannot distinguish this from success; it throws
(`stderr || message || 'Git command failed'`) only when the failed
command's stdout is empty or absent. -/
theorem C10_git_failure_swallowed (so se msg : Option String) :
    (∀ s, so = some s → s ≠ "" →
      gitWrapper (.failure so se msg) = .ok s.trim) ∧
    (so = none ∨ so = some "" →
      gitWrapper (.failure so se msg) =
        .error (jsOr se (jsOr msg "Git command failed"))) := by
  constructor
  · rintro s rfl hs
    simp [gitWrapper, truthy, hs]
  · rintro (rfl | rfl) <;> simp [gitWrapper, truthy]

/-- Witness for C10: a failure with stdout `" out "` is reported as the
success `" out ".trim`; a failure with no stdout throws the stderr
text. -/
theorem C10_git_failure_swallowed_witness :
    gitWrapper (.failure (some " out ") (some "err") none) =
      .ok (" out ".trim) ∧
    gitWrapper (.failure none (some "err") none) = .error "err" := by
  constructor
  · exact (C10_git_failure_swallowed (some " out ") (some "err") none).1
      " out " rfl (by decide)
  · have h := (C10_git_failure_swallowed none (some "err") none).2 (Or.inl rfl)
    simpa [jsOr] using h

/-! ### Edge lemmas -/

/-- The node of commit `i`, as the edge loop reads it. -/
def nodeAt (cs : List GraphCommit) (i : Nat) : NodePos :=
  (nodePositions cs).getD i defaultNode

lemma hashToIndex_eq_none {cs : List GraphCommit} {h : String}
    (habs : ∀ d ∈ cs, d.hash ≠ h) : hashToIndex cs h = none := by
  unfold hashToIndex
  rw [Option.map_eq_none', List.find?_eq_none]
  intro x hx
  have hxm : x ∈ cs.enum := List.mem_reverse.mp hx
  have hget : cs[x.1]? = some x.2 := List.mem_enum_iff_getElem?.mp hxm
  have hmem : x.2 ∈ cs := List.getElem?_mem hget
  simpa using habs x.2 hmem

lemma edgesOfCommit_getElem? (cs : List GraphCommit) (nodes : List NodePos)
    (i : Nat) (c : GraphCommit) (pidx : Nat) (p : String)
    (hp : c.parents[pidx]? = some p) :
    (edgesOfCommit cs nodes i c)[pidx]? =
      some (match hashToIndex cs p with
        | some parentIndex =>
          { x1 := (nodes.getD i defaultNode).x
            y1 := (nodes.getD i defaultNode).y
            x2 := (nodes.getD parentIndex defaultNode).x
            y2 := (nodes.getD parentIndex defaultNode).y
            color := if pidx == 0 then (nodes.getD i defaultNode).color
                     else (nodes.getD parentIndex defaultNode).color }
        | none =>
          { x1 := (nodes.getD i defaultNode).x
            y1 := (nodes.getD i defaultNode).y
            x2 := (nodes.getD i defaultNode).x
            y2 := cs.length * ROW_HEIGHT
            color := (nodes.getD i defaultNode).color }) := by
  unfold edgesOfCommit
  rw [List.getElem?_map, List.getElem?_enum, hp]
  rfl

/-- C6: a parent hash absent from the fetched window produces no error:
the edge emitted for it is a terminus edge running straight down in the
commit's own lane (`x2 = x1` = the commit node's x) to the bottom of the
visible rows (`y2 = commits.length * ROW_HEIGHT`), in the commit's own
lane color; that edge is part of the returned edge list. -/
theorem C6_terminus_edge (cs : List GraphCommit) (i pidx : Nat)
    (hi : i < cs.length) (p : String)
    (hp : (cs.get ⟨i, hi⟩).parents[pidx]? = some p)
    (habs : ∀ d ∈ cs, d.hash ≠ p) :
    (edgesOfCommit cs (nodePositions cs) i (cs.get ⟨i, hi⟩))[pidx]? =
      some { x1 := (nodeAt cs i).x, y1 := (nodeAt cs i).y
             x2 := (nodeAt cs i).x, y2 := cs.length * ROW_HEIGHT
             color := (nodeAt cs i).color } ∧
    ({ x1 := (nodeAt cs i).x, y1 := (nodeAt cs i).y
       x2 := (nodeAt cs i).x, y2 := cs.length * ROW_HEIGHT
       color := (nodeAt cs i).color } : Edge) ∈ graphEdges cs := by
  have hnone := hashToIndex_eq_none habs
  have hedge := edgesOfCommit_getElem? cs (nodePositions cs) i
    (cs.get ⟨i, hi⟩) pidx p hp
  rw [hnone] at hedge
  refine ⟨hedge, ?_⟩
  have hmem : ({ x1 := (nodeAt cs i).x, y1 := (nodeAt cs i).y
                 x2 := (nodeAt cs i).x, y2 := cs.length * ROW_HEIGHT
                 color := (nodeAt cs i).color } : Edge) ∈
      edgesOfCommit cs (nodePositions cs) i (cs.get ⟨i, hi⟩) :=
    List.getElem?_mem hedge
  refine List.mem_flatMap.mpr ⟨(i, cs.get ⟨i, hi⟩), ?_, hmem⟩
  exact List.mem_enum_iff_getElem?.mpr (by simp)

/-- Witness for C6: a single commit whose only parent `Z` is outside the
window yields the terminus edge and no error. -/
theorem C6_terminus_edge_witness :
    (edgesOfCommit [{ hash := "A", parents := ["Z"] }]
        (nodePositions [{ hash := "A", parents := ["Z"] }]) 0
        (([{ hash := "A", parents := ["Z"] }] :
          List GraphCommit).get ⟨0, by decide⟩))[0]? =
      some { x1 := (nodeAt [{ hash := "A", parents := ["Z"] }] 0).x
             y1 := (nodeAt [{ hash := "A", parents := ["Z"] }] 0).y
             x2 := (nodeAt [{ hash := "A", parents := ["Z"] }] 0).x
             y2 := 1 * ROW_HEIGHT
             color := (nodeAt [{ hash := "A", parents := ["Z"] }] 0).color } ∧
    ({ x1 := (nodeAt [{ hash := "A", parents := ["Z"] }] 0).x
       y1 := (nodeAt [{ hash := "A", parents := ["Z"] }] 0).y
       x2 := (nodeAt [{ hash := "A", parents := ["Z"] }] 0).x
       y2 := 1 * ROW_HEIGHT
       color := (nodeAt [{ hash := "A", parents := ["Z"] }] 0).color } : Edge) ∈
      graphEdges [{ hash := "A", parents := ["Z"] }] :=
  C6_terminus_edge [{ hash := "A", parents := ["Z"] }] 0 0 (by decide) "Z"
    (by decide) (by decide)

lemma edgesOfCommit_length (cs : List GraphCommit) (nodes : List NodePos)
    (j : Nat) (c : GraphCommit) :
    (edgesOfCommit cs nodes j c).length = c.parents.length := by
  unfold edgesOfCommit
  simp [List.enum_length]

lemma edgesOfCommit_start {cs : List GraphCommit} {nodes : List NodePos}
    {j : Nat} {c : GraphCommit} {e : Edge}
    (he : e ∈ edgesOfCommit cs nodes j c) :
    e.x1 = (nodes.getD j defaultNode).x ∧ e.y1 = (nodes.getD j defaultNode).y := by
  unfold edgesOfCommit at he
  obtain ⟨pp, -, hpp⟩ := List.mem_map.mp he
  subst hpp
  cases hidx : hashToIndex cs pp.2 <;> simp [hidx]

lemma nodeAt_y (cs : List GraphCommit) (i : Nat) (hi : i < cs.length) :
    (nodeAt cs i).y = i * ROW_HEIGHT + ROW_HEIGHT / 2 := by
  have hiz : i < (cs.zip (computeLanes cs)).length := by
    rw [List.length_zip, computeLanes_length]
    simp [hi]
  have hz : (cs.zip (computeLanes cs))[i]? =
      some ((cs.zip (computeLanes cs))[i]) := List.getElem?_eq_getElem hiz
  unfold nodeAt nodePositions
  rw [List.getD_eq_getElem?_getD, List.getElem?_map, List.getElem?_enum, hz]
  rfl

/-- Any edge emitted for the commit at row `j < cs.length` starts at a
`y1` that determines `j`; rows `j ≠ i` therefore contribute no edge
starting at row `i`'s node. -/
lemma edgesOfCommit_pred_false {cs : List GraphCommit} {i j : Nat}
    (hi : i < cs.length) (hj : j < cs.length) (hne : j ≠ i)
    {c : GraphCommit} {e : Edge}
    (he : e ∈ edgesOfCommit cs (nodePositions cs) j c) :
    (e.x1 == (nodeAt cs i).x && e.y1 == (nodeAt cs i).y) = false := by
  have hy := (edgesOfCommit_start he).2
  have hyj := nodeAt_y cs j hj
  have hyi := nodeAt_y cs i hi
  have : e.y1 ≠ (nodeAt cs i).y := by
    rw [hy]
    show (nodeAt cs j).y ≠ (nodeAt cs i).y
    rw [hyj, hyi]
    unfold ROW_HEIGHT
    omega
  simp [this]

/-- C5: a commit with `k` parents produces exactly `k` outgoing edges
from its node in the returned edge list (terminus edges for missing
parents included). -/
theorem C5_merge_fanout (cs : List GraphCommit) (i : Nat) (hi : i < cs.length) :
    ((graphEdges cs).countP fun e =>
        e.x1 == (nodeAt cs i).x && e.y1 == (nodeAt cs i).y) =
      (cs.get ⟨i, hi⟩).parents.length := by
  unfold graphEdges
  have hsplit : cs = cs.take i ++ cs.drop i := (List.take_append_drop i cs).symm
  have hdrop : cs.drop i = cs[i] :: cs.drop (i + 1) := List.drop_eq_getElem_cons hi
  have htl : (cs.take i).length = i := by
    rw [List.length_take]
    omega
  have henum : cs.enum =
      (cs.take i).enum ++ (i, cs[i]) :: List.enumFrom (i + 1) (cs.drop (i + 1)) := by
    conv_lhs => rw [hsplit]
    rw [List.enum_append, htl, hdrop, List.enumFrom_cons]
  have hpre : ((cs.take i).enum.flatMap fun ic =>
      edgesOfCommit cs (nodePositions cs) ic.1 ic.2).countP
        (fun e => e.x1 == (nodeAt cs i).x && e.y1 == (nodeAt cs i).y) = 0 := by
    rw [List.countP_eq_zero]
    intro e he
    obtain ⟨jc, hjc, hein⟩ := List.mem_flatMap.mp he
    have hj : (cs.take i)[jc.1]? = some jc.2 := List.mem_enum_iff_getElem?.mp hjc
    have hjlt : jc.1 < i := by
      by_contra hge
      rw [List.getElem?_take] at hj
      simp [hge] at hj
    simp [edgesOfCommit_pred_false hi (lt_trans hjlt hi) (Nat.ne_of_lt hjlt) hein]
  have hpost : ((List.enumFrom (i + 1) (cs.drop (i + 1))).flatMap fun ic =>
      edgesOfCommit cs (nodePositions cs) ic.1 ic.2).countP
        (fun e => e.x1 == (nodeAt cs i).x && e.y1 == (nodeAt cs i).y) = 0 := by
    rw [List.countP_eq_zero]
    intro e he
    obtain ⟨jc, hjc, hein⟩ := List.mem_flatMap.mp he
    obtain ⟨hle, hlt, -⟩ := List.mem_enumFrom hjc
    have hjcs : jc.1 < cs.length := by
      have := List.length_drop (i + 1) cs
      omega
    exact ne_eq _ _ ▸ (by
      simp [edgesOfCommit_pred_false hi hjcs (by omega) hein])
  have hmid : (edgesOfCommit cs (nodePositions cs) i cs[i]).countP
      (fun e => e.x1 == (nodeAt cs i).x && e.y1 == (nodeAt cs i).y) =
        (cs.get ⟨i, hi⟩).parents.length := by
    have hall : ∀ e ∈ edgesOfCommit cs (nodePositions cs) i cs[i],
        (e.x1 == (nodeAt cs i).x && e.y1 == (nodeAt cs i).y) = true := by
      intro e he
      obtain ⟨hx, hy⟩ := edgesOfCommit_start he
      have : nodeAt cs i = (nodePositions cs).getD i defaultNode := rfl
      simp [this, hx, hy]
    calc (edgesOfCommit cs (nodePositions cs) i cs[i]).countP
          (fun e => e.x1 == (nodeAt cs i).x && e.y1 == (nodeAt cs i).y)
        = (edgesOfCommit cs (nodePositions cs) i cs[i]).length :=
          List.countP_eq_length.mpr hall
      _ = (cs.get ⟨i, hi⟩).parents.length := by
          rw [edgesOfCommit_length]
          rfl
  rw [henum, List.flatMap_append, List.flatMap_cons, List.countP_append,
    List.countP_append]
  simp only at hpre hmid hpost ⊢
  rw [hpre, hmid, hpost]
  omega

/-- Witness for C5: the single commit with one (absent) parent has
exactly one outgoing edge. -/
theorem C5_merge_fanout_witness :
    ((graphEdges [{ hash := "A", parents := ["Z"] }]).countP fun e =>
        e.x1 == (nodeAt [{ hash := "A", parents := ["Z"] }] 0).x &&
        e.y1 == (nodeAt [{ hash := "A", parents := ["Z"] }] 0).y) =
      (([{ hash := "A", parents := ["Z"] }] :
        List GraphCommit).get ⟨0, by decide⟩).parents.length :=
  C5_merge_fanout [{ hash := "A", parents := ["Z"] }] 0 (by decide)

/-! ### C7: lane density fails; the top lane is nevertheless always used -/

/-- Merge commit `M` whose second merge parent `H` gets lane 1 reserved,
while `P` re-registers the same expectation on lane 0; `H` then resolves
to lane 0 and `Q` has already been pushed to lane 2, so lane 1 is
released without ever being assigned to a commit. -/
def denseCex : List GraphCommit :=
  [{ hash := "M", parents := ["P", "H"] },
   { hash := "P", parents := ["H"] },
   { hash := "Q", parents := ["H"] },
   { hash := "H", parents := [] }]

/-- Counterexample for C7: on `denseCex` the layout returns
`maxLane = 3` but no commit is ever assigned lane 1 (the lanes are
`[0, 0, 2, 0]`), so not every lane index in `[0, maxLane)` is used; the
empty input likewise gives `maxLane = 1` with no commit at all. -/
theorem C7_dense_lanes_cex :
    ¬ ((∀ l, l < maxLane denseCex → l ∈ computeLanes denseCex) ∧
       (∀ l, l < maxLane ([] : List GraphCommit) →
         l ∈ computeLanes ([] : List GraphCommit))) := by
  decide

/-- C7 amended: lanes are not dense — a lane reserved for a merge parent
can be released by the stale-expectation sweep without ever being
assigned (and the empty input yields `maxLane = 1` with no commits), but
for every nonempty input the top lane index `maxLane - 1` is used by at
least one commit. -/
theorem C7_top_lane_used (cs : List GraphCommit) (hne : cs ≠ []) :
    maxLane cs - 1 ∈ computeLanes cs := by
  obtain ⟨c, rest, rfl⟩ := List.exists_cons_of_ne_nil hne
  have hhead : computeLanes (c :: rest) =
      0 :: laneLoop (processCommit { laneOccupied := [], laneExpects := [] }
        c rest).2 rest := rfl
  have hml : maxLane (c :: rest) - 1 = (computeLanes (c :: rest)).foldl max 0 := by
    unfold maxLane
    omega
  rw [hml]
  rcases List.mem_cons.mp (foldl_max_mem (computeLanes (c :: rest)) 0) with h | h
  · rw [h, hhead]
    exact List.mem_cons_self _ _
  · exact h

/-- Witness for C7 amended at Scenario B: `maxLane - 1 = 1` is the lane
of commit `B`. -/
theorem C7_top_lane_used_witness :
    scenarioB ≠ [] ∧ maxLane scenarioB - 1 ∈ computeLanes scenarioB :=
  ⟨by decide, C7_top_lane_used scenarioB (by decide)⟩

/-! ### Decomposition of the lane loop at a row -/

lemma laneLoop_drop (pre : List GraphCommit) :
    ∀ (suffix : List GraphCommit) (s : LaneState),
      (laneLoop s (pre ++ suffix)).drop pre.length =
        laneLoop (stateAfter s pre suffix) suffix := by
  induction pre with
  | nil => intro suffix s; rfl
  | cons c pre ih =>
    intro suffix s
    show (laneLoop s (c :: (pre ++ suffix))).drop (pre.length + 1) = _
    rw [laneLoop, List.drop_succ_cons]
    exact ih suffix _

lemma computeLanes_at (pre suffix : List GraphCommit) (d : GraphCommit) :
    (computeLanes (pre ++ d :: suffix))[pre.length]? =
      some (assignLane (stateBefore pre (d :: suffix)) d) := by
  have h := laneLoop_drop pre (d :: suffix)
    { laneOccupied := [], laneExpects := [] }
  have hh : ((computeLanes (pre ++ d :: suffix)).drop pre.length).head? =
      some (assignLane (stateBefore pre (d :: suffix)) d) := by
    unfold computeLanes
    rw [h]
    rfl
  rw [List.head?_drop] at hh
  exact hh

lemma stateAfter_append (l₁ : List GraphCommit) :
    ∀ (l₂ suffix : List GraphCommit) (s : LaneState),
      stateAfter s (l₁ ++ l₂) suffix =
        stateAfter (stateAfter s l₁ (l₂ ++ suffix)) l₂ suffix := by
  induction l₁ with
  | nil => intro l₂ suffix s; rfl
  | cons c l₁ ih =>
    intro l₂ suffix s
    show stateAfter (processCommit s c ((l₁ ++ l₂) ++ suffix)).2 (l₁ ++ l₂) suffix = _
    rw [List.append_assoc]
    exact ih l₂ suffix _

/-! ### Writes to the growable arrays -/

lemma jsSet_getElem?_self {α : Type} (l : List α) (i : Nat) (d a : α) :
    (jsSet l i d a)[i]? = some a := by
  unfold jsSet
  split
  · exact List.getElem?_set_self ‹_›
  · rename_i h
    have hlen : l.length ≤ i := Nat.le_of_not_lt h
    have hlen2 : (l ++ List.replicate (i - l.length) d).length = i := by
      simp
      omega
    rw [List.getElem?_append_right hlen2.le, hlen2]
    simp

lemma jsSet_getElem?_lt {α : Type} {l : List α} {i j : Nat} (hj : j < l.length)
    (hne : j ≠ i) (d a : α) : (jsSet l i d a)[j]? = l[j]? := by
  unfold jsSet
  split
  · exact List.getElem?_set_ne (fun he => hne he.symm)
  · rw [List.getElem?_append_left (by simp; omega),
      List.getElem?_append_left hj]

/-! ### The open-expectation invariant -/

/-- Lane `L` is occupied and expecting hash `p0` in state `s`. -/
def ExpectsAt (s : LaneState) (L : Nat) (p0 : String) : Prop :=
  s.laneOccupied[L]? = some true ∧ s.laneExpects[L]? = some (some p0)

lemma ExpectsAt.occLt {s : LaneState} {L : Nat} {p0 : String}
    (h : ExpectsAt s L p0) : L < s.laneOccupied.length := by
  obtain ⟨h1, -⟩ := h
  exact (List.getElem?_eq_some.mp h1).1

lemma ExpectsAt.expLt {s : LaneState} {L : Nat} {p0 : String}
    (h : ExpectsAt s L p0) : L < s.laneExpects.length := by
  obtain ⟨-, h2⟩ := h
  exact (List.getElem?_eq_some.mp h2).1

/-- A merge-parent reservation never touches a lane that is occupied
with an open expectation: the reserved lane is chosen free. -/
lemma reserveParent_preserves {A : Nat} {s : LaneState} {h : String}
    {L : Nat} {p0 : String} (hL : ExpectsAt s L p0) :
    ExpectsAt (reserveParent A s h) L p0 := by
  unfold reserveParent
  split
  · exact hL
  · rcases hfind : s.laneOccupied.enum.find? (fun oi => !oi.2 && oi.1 != A) with
      _ | ⟨oi⟩
    · simp only [hfind]
      exact ⟨by rw [jsSet_getElem?_lt hL.occLt (Nat.ne_of_lt hL.occLt)]; exact hL.1,
             by rw [jsSet_getElem?_lt hL.expLt (Nat.ne_of_lt hL.occLt)]; exact hL.2⟩
    · simp only [hfind]
      have hmem := List.mem_of_find?_eq_some hfind
      have hpred := List.find?_some hfind
      have hocc : s.laneOccupied[oi.1]? = some oi.2 :=
        List.mem_enum_iff_getElem?.mp hmem
      have hPL : L ≠ oi.1 := by
        intro heq
        rw [← heq] at hocc
        rw [hL.1] at hocc
        have h2 : oi.2 = true := by injection hocc with h2; exact h2.symm
        rw [h2] at hpred
        simp at hpred
      exact ⟨by rw [jsSet_getElem?_lt hL.occLt hPL]; exact hL.1,
             by rw [jsSet_getElem?_lt hL.expLt hPL]; exact hL.2⟩

/-- The stale-lane sweep keeps an expectation that some remaining commit
will satisfy. -/
lemma gcLanes_preserves {remaining : List GraphCommit} {s : LaneState}
    {L : Nat} {p0 : String}
    (hrem : remaining.any (fun x => x.hash == p0) = true)
    (hL : ExpectsAt s L p0) : ExpectsAt (gcLanes remaining s) L p0 := by
  have hstale : staleExpect remaining (some p0) = false := by
    unfold staleExpect
    simp [hrem]
  have hzip : (s.laneOccupied.zip s.laneExpects)[L]? = some (true, some p0) :=
    List.getElem?_zip_eq_some.mpr ⟨hL.1, hL.2⟩
  constructor
  · show ((s.laneOccupied.zip s.laneExpects).map _)[L]? = some true
    rw [List.getElem?_map, hzip]
    simp [hstale]
  · show (s.laneExpects.map _)[L]? = some (some p0)
    rw [List.getElem?_map, hL.2]
    simp [hstale]

/-- A commit whose hash is not the expected one is never assigned to a
lane holding an open expectation. -/
lemma assignLane_ne {s : LaneState} {c : GraphCommit} {L : Nat} {p0 : String}
    (hL : ExpectsAt s L p0) (hc : c.hash ≠ p0) : assignLane s c ≠ L := by
  unfold assignLane
  rcases hfind : s.laneExpects.findIdx? (fun e => e == some c.hash) with _ | ⟨l⟩
  · rcases hfree : s.laneOccupied.findIdx? (fun o => !o) with _ | ⟨l⟩
    · exact Nat.ne_of_gt hL.occLt
    · intro heq
      subst heq
      obtain ⟨hlt, hp, -⟩ := List.findIdx?_eq_some_iff_getElem.mp hfree
      have : s.laneOccupied[l]? = some s.laneOccupied[l] :=
        List.getElem?_eq_getElem hlt
      rw [hL.1] at this
      have hval : s.laneOccupied[l] = true := by injection this with h2; exact h2.symm
      rw [hval] at hp
      simp at hp
  · intro heq
    subst heq
    obtain ⟨hlt, hp, -⟩ := List.findIdx?_eq_some_iff_getElem.mp hfind
    have : s.laneExpects[l]? = some s.laneExpects[l] := List.getElem?_eq_getElem hlt
    rw [hL.2] at this
    have hval : s.laneExpects[l] = some p0 := by injection this with h2; exact h2.symm
    rw [hval] at hp
    simp at hp
    exact hc hp.symm

/-- When lane `L` expects `d.hash` and no lower-indexed lane does, the
`indexOf` lookup resolves to `L`. -/
lemma assignLane_expects_eq {s : LaneState} {d : GraphCommit} {L : Nat}
    (hexp : s.laneExpects[L]? = some (some d.hash))
    (hmin : ∀ l, l < L → s.laneExpects[l]? ≠ some (some d.hash)) :
    assignLane s d = L := by
  unfold assignLane
  have hLlt : L < s.laneExpects.length := (List.getElem?_eq_some.mp hexp).1
  have hfind : s.laneExpects.findIdx? (fun e => e == some d.hash) = some L := by
    refine List.findIdx?_eq_some_iff_getElem.mpr ⟨hLlt, ?_, ?_⟩
    · have hsome := List.getElem?_eq_getElem hLlt
      rw [hexp] at hsome
      have hval : s.laneExpects[L] = some d.hash := by
        injection hsome with h2; exact h2.symm
      simp [hval]
    · intro j hj
      have hjlt : j < s.laneExpects.length := lt_trans hj hLlt
      have hje : s.laneExpects[j]? = some s.laneExpects[j] :=
        List.getElem?_eq_getElem hjlt
      have := hmin j hj
      rw [hje] at this
      simp only [ne_eq, Option.some.injEq] at this
      simp [this]
  rw [hfind]

/-- The merge-parent reservation loop preserves open expectations. -/
lemma foldl_reserveParent_preserves (A : Nat) (qs : List String) :
    ∀ (s : LaneState) (L : Nat) (p0 : String), ExpectsAt s L p0 →
      ExpectsAt (qs.foldl (reserveParent A) s) L p0 := by
  induction qs with
  | nil => intro s L p0 h; exact h
  | cons q qs ih =>
    intro s L p0 h
    exact ih _ _ _ (reserveParent_preserves h)

/-- Processing one commit that is not the awaited hash preserves an open
expectation that some remaining commit will satisfy. -/
lemma processCommit_preserves {s : LaneState} {c : GraphCommit}
    {remaining : List GraphCommit} {L : Nat} {p0 : String}
    (hL : ExpectsAt s L p0) (hc : c.hash ≠ p0)
    (hrem : remaining.any (fun x => x.hash == p0) = true) :
    ExpectsAt (processCommit s c remaining).2 L p0 := by
  have hA : assignLane s c ≠ L := assignLane_ne hL hc
  unfold processCommit
  refine gcLanes_preserves hrem ?_
  have hocc : (jsSet s.laneOccupied (assignLane s c) false true)[L]? = some true := by
    rw [jsSet_getElem?_lt hL.occLt (fun h => hA h.symm)]
    exact hL.1
  have hexp : (jsSet s.laneExpects (assignLane s c) none none)[L]? =
      some (some p0) := by
    rw [jsSet_getElem?_lt hL.expLt (fun h => hA h.symm)]
    exact hL.2
  rcases hpar : c.parents with _ | ⟨q0, qs⟩
  · simp only [hpar]
    refine ⟨?_, hexp⟩
    have hlen : L < (jsSet s.laneOccupied (assignLane s c) false true).length :=
      (List.getElem?_eq_some.mp hocc).1
    rw [jsSet_getElem?_lt hlen (fun h => hA h.symm)]
    exact hocc
  · simp only [hpar]
    have hstart : ExpectsAt
        { laneOccupied := jsSet s.laneOccupied (assignLane s c) false true
          laneExpects := jsSet (jsSet s.laneExpects (assignLane s c) none none)
            (assignLane s c) none (some q0) } L p0 := by
      refine ⟨hocc, ?_⟩
      have hlen : L < (jsSet s.laneExpects (assignLane s c) none none).length :=
        (List.getElem?_eq_some.mp hexp).1
      rw [jsSet_getElem?_lt hlen (fun h => hA h.symm)]
      exact hexp
    exact foldl_reserveParent_preserves _ _ _ _ _ hstart

/-- The expectation established by a commit's first parent survives any
run of rows none of which carries the awaited hash, as long as a commit
of the suffix still does. -/
lemma stateAfter_preserves (mid : List GraphCommit) :
    ∀ (suffix : List GraphCommit) (s : LaneState) (L : Nat) (p0 : String),
      ExpectsAt s L p0 →
      (∀ e ∈ mid, e.hash ≠ p0) →
      suffix.any (fun x => x.hash == p0) = true →
      ExpectsAt (stateAfter s mid suffix) L p0 := by
  induction mid with
  | nil => intro suffix s L p0 h _ _; exact h
  | cons c mid ih =>
    intro suffix s L p0 h hmid hsuf
    refine ih suffix _ L p0 ?_ (fun e he => hmid e (List.mem_cons_of_mem _ he)) hsuf
    refine processCommit_preserves h (hmid c (List.mem_cons_self _ _)) ?_
    rw [List.any_append, hsuf]
    simp

/-- Processing a commit with a first parent installs the expectation for
that parent on the assigned lane (provided the sweep keeps it, i.e. some
remaining commit carries the parent hash). -/
lemma processCommit_establishes {s : LaneState} {c : GraphCommit}
    {remaining : List GraphCommit} {p0 : String} {ps : List String}
    (hparents : c.parents = p0 :: ps)
    (hrem : remaining.any (fun x => x.hash == p0) = true) :
    ExpectsAt (processCommit s c remaining).2 (assignLane s c) p0 := by
  unfold processCommit
  refine gcLanes_preserves hrem ?_
  rw [hparents]
  simp only
  refine foldl_reserveParent_preserves _ _ _ _ _ ?_
  exact ⟨jsSet_getElem?_self _ _ _ _, jsSet_getElem?_self _ _ _ _⟩

/-! ### C4 and C8 -/

/-- Default record for out-of-range reads in concrete statements. -/
def emptyCommit : GraphCommit := { hash := "", parents := [] }

/-- Input refuting C4: `X` (row 1) lands in lane 2 expecting its first
parent `H`, but lane 1 — reserved for `H` as `M`'s merge parent at
row 0 — also expects `H` and is lower, so `H` (row 3) resolves to
lane 1, not to `X`'s lane, although no commit in between was assigned to
`X`'s lane. -/
def contCex : List GraphCommit :=
  [{ hash := "M", parents := ["A", "H"] },
   { hash := "X", parents := ["H"] },
   { hash := "A", parents := [] },
   { hash := "H", parents := [] }]

/-- Counterexample for C4: on `contCex` the commit at row 1 has first
parent `H`, `H` appears at row 3 and nowhere in between, no commit
between rows 2..2 is assigned lane `lanes[1] = 2`, yet
`lanes[3] = 1 ≠ 2 = lanes[1]` — first-parent same-lane continuity fails
because a lower lane held a competing expectation for `H`. -/
theorem C4_continuity_cex :
    (contCex.getD 1 emptyCommit).parents = ["H"] ∧
    (contCex.getD 3 emptyCommit).hash = "H" ∧
    (contCex.getD 2 emptyCommit).hash ≠ "H" ∧
    computeLanes contCex = [0, 2, 0, 1] ∧
    (computeLanes contCex).getD 2 0 ≠ (computeLanes contCex).getD 1 0 ∧
    (computeLanes contCex).getD 3 0 ≠ (computeLanes contCex).getD 1 0 := by
  decide

/-- C4 amended: first-parent same-lane continuity additionally requires
that, when the parent's row is reached, no lane below the commit's lane
holds an expectation for the same parent hash (and that the parent hash
does not occur on the intermediate rows).  Rows `i = pre.length` and
`j = (pre ++ c :: mid).length`; the claim's own hypothesis — no
intermediate row assigned to the commit's lane — is kept as `hlane`. -/
theorem C4_first_parent_continuity
    (pre mid post : List GraphCommit) (c d : GraphCommit)
    (p0 : String) (ps : List String)
    (hparents : c.parents = p0 :: ps)
    (hd : d.hash = p0)
    (hmid : ∀ e ∈ mid, e.hash ≠ p0)
    (_hlane : assignLane (stateBefore pre (c :: (mid ++ d :: post))) c ∉
      ((computeLanes (pre ++ c :: (mid ++ d :: post))).drop (pre.length + 1)).take
        mid.length)
    (hmin : ∀ l, l < assignLane (stateBefore pre (c :: (mid ++ d :: post))) c →
      (stateBefore (pre ++ c :: mid) (d :: post)).laneExpects[l]? ≠
        some (some p0)) :
    (computeLanes (pre ++ c :: (mid ++ d :: post)))[(pre ++ c :: mid).length]? =
      (computeLanes (pre ++ c :: (mid ++ d :: post)))[pre.length]? := by
  set L := assignLane (stateBefore pre (c :: (mid ++ d :: post))) c with hLdef
  have hrow_i : (computeLanes (pre ++ c :: (mid ++ d :: post)))[pre.length]? =
      some L := computeLanes_at pre (mid ++ d :: post) c
  have hshape : pre ++ c :: (mid ++ d :: post) = (pre ++ c :: mid) ++ d :: post := by
    simp
  have hrow_j : (computeLanes (pre ++ c :: (mid ++ d :: post)))[(pre ++ c :: mid).length]? =
      some (assignLane (stateBefore (pre ++ c :: mid) (d :: post)) d) := by
    rw [hshape]
    exact computeLanes_at (pre ++ c :: mid) post d
  have hsB : stateBefore (pre ++ c :: mid) (d :: post) =
      stateAfter (processCommit (stateBefore pre (c :: (mid ++ d :: post))) c
        (mid ++ d :: post)).2 mid (d :: post) := by
    show stateAfter _ (pre ++ c :: mid) (d :: post) = _
    rw [stateAfter_append pre (c :: mid) (d :: post)]
    rfl
  have hrem : (mid ++ d :: post).any (fun x => x.hash == p0) = true := by
    rw [List.any_append]
    simp [hd]
  have hsuf : (d :: post).any (fun x => x.hash == p0) = true := by
    simp [hd]
  have hinv : ExpectsAt (stateBefore (pre ++ c :: mid) (d :: post)) L p0 := by
    rw [hsB]
    exact stateAfter_preserves mid (d :: post) _ L p0
      (processCommit_establishes hparents hrem) hmid hsuf
  have hassign : assignLane (stateBefore (pre ++ c :: mid) (d :: post)) d = L := by
    refine assignLane_expects_eq ?_ ?_
    · rw [hd]
      exact hinv.2
    · intro l hl
      rw [hd]
      exact hmin l hl
  rw [hrow_i, hrow_j, hassign]

/-- Witness for C4 amended: a two-commit linear history `B → A`; `B`'s
lane 0 continues into its first parent `A` on the next row. -/
theorem C4_first_parent_continuity_witness :
    (computeLanes ([] ++ { hash := "B", parents := ["A"] } ::
        ([] ++ { hash := "A", parents := ([] : List String) } :: [])))[
      ([] ++ [{ hash := "B", parents := ["A"] }] : List GraphCommit).length]? =
      (computeLanes ([] ++ { hash := "B", parents := ["A"] } ::
        ([] ++ { hash := "A", parents := ([] : List String) } :: [])))[
        ([] : List GraphCommit).length]? :=
  C4_first_parent_continuity [] [] [] { hash := "B", parents := ["A"] }
    { hash := "A", parents := [] } "A" [] rfl rfl (by decide) (by decide)
    (by decide)

/-- Input refuting C8: `M`'s merge parent `H` gets lane 1 reserved at
row 0 (the first registration), then `P` re-registers `H` on lane 0 at
row 1; `H` is assigned lane 0, not the first-registered lane 1. -/
def lookupCex : List GraphCommit :=
  [{ hash := "M", parents := ["P", "H"] },
   { hash := "P", parents := ["H"] },
   { hash := "H", parents := [] }]

/-- Counterexample for C8: after row 0 only lane 1 expects `H`
(registered earliest), after row 1 lanes 0 and 1 both expect `H`, and
the commit `H` at row 2 is assigned lane 0 — the lowest-indexed lane —
not the lane that registered its expectation first. -/
theorem C8_registration_order_cex :
    (stateBefore (lookupCex.take 1) (lookupCex.drop 1)).laneExpects =
      [some "P", some "H"] ∧
    (stateBefore (lookupCex.take 2) (lookupCex.drop 2)).laneExpects =
      [some "H", some "H"] ∧
    computeLanes lookupCex = [0, 0, 0] := by
  decide

/-- C8 amended: when several lanes hold an expectation equal to the
processed commit's hash, the lookup resolves to the lowest-indexed such
lane (lane order, not registration order), and the commit is assigned
that lane. -/
theorem C8_lowest_expecting_lane_wins (pre post : List GraphCommit)
    (d : GraphCommit) (L : Nat)
    (hexp : (stateBefore pre (d :: post)).laneExpects[L]? = some (some d.hash))
    (hmin : ∀ l, l < L →
      (stateBefore pre (d :: post)).laneExpects[l]? ≠ some (some d.hash)) :
    (computeLanes (pre ++ d :: post))[pre.length]? = some L := by
  rw [computeLanes_at pre post d, assignLane_expects_eq hexp hmin]

/-- Witness for C8 amended at `lookupCex`: both lanes expect `H` at
row 2 and the commit is assigned the lowest, lane 0. -/
theorem C8_lowest_expecting_lane_wins_witness :
    (computeLanes (lookupCex.take 2 ++
        { hash := "H", parents := ([] : List String) } :: []))[
      (lookupCex.take 2).length]? = some 0 :=
  C8_lowest_expecting_lane_wins (lookupCex.take 2) []
    { hash := "H", parents := [] } 0 (by decide) (by decide)

end GitPilot
